import Mathlib

/-!
Verification of the shape-based (hidden-class) object model in
`src/b9/include/b9/objects.hpp`.

The embedding is shallow and executable:

* `Map` embeds the C++ `Map` hierarchy (`MapMap`, `EmptyObjectMap`,
  `ObjectMap`) as an inductive tree; an `ObjectMap` node stores its parent,
  its property `Id` and its stored `index_` field (`Index` is `uint8_t` in
  the source, so constructed indices are reduced `% 256`).
* `Object` embeds the C++ `Object`: a current map plus the slot array
  `Value slots_[MAX_SLOTS]`; the array is modelled as a total function
  `Nat → Int` so that the source's out-of-bounds writes are representable
  (bounds are tracked in the theorems, as in the source where any write at
  index `≥ MAX_SLOTS` is past the end of the declared array).
* The `throw` in `newSlot` is modelled by an `Except` result paired with
  the (unchanged) object state, matching C++ exception unwinding.
* A second, store-based model (`HNode`, `HObject`, `runH`) makes shape
  allocation explicit for the frame/immutability claims: shape nodes live
  in an append-only list and objects refer to them by position.
-/

set_option maxRecDepth 100000

namespace b9

/-- Embeds `enum class MapKind { OBJECT_MAP, MAP_MAP, EMPTY_OBJECT_MAP }`. -/
inductive MapKind
| OBJECT_MAP
| MAP_MAP
| EMPTY_OBJECT_MAP
deriving DecidableEq

/-- Embeds the `Map` class hierarchy. `objectMap parent id index` is an
`ObjectMap` with its stored `parent_`, `id_` and `index_` fields; the
`index_` value is whatever the constructor stored (a `uint8_t`). -/
inductive Map
| mapMap
| emptyObjectMap
| objectMap (parent : Map) (id : Nat) (index : Nat)
deriving DecidableEq

/-- Embeds `Map::kind()` (the `kind_` tag set by each constructor). -/
def Map.kind : Map → MapKind
| .mapMap => .MAP_MAP
| .emptyObjectMap => .EMPTY_OBJECT_MAP
| .objectMap _ _ _ => .OBJECT_MAP

/-- Embeds `static constexpr std::size_t MAX_SLOTS = 32`. -/
def MAX_SLOTS : Nat := 32

/-- Embeds `Object`: the current map (`Cell::map_`) and the slot array
`Value slots_[MAX_SLOTS]`, modelled as a total function so out-of-bounds
indices are expressible. -/
structure Object where
  map : Map
  slots : Nat → Int

/-- Embeds `Object(EmptyObjectMap*)`: fresh object on the root shape with
`memset(slots_, 0, ...)`. -/
def freshObject : Object :=
  { map := .emptyObjectMap, slots := fun _ => 0 }

/-- Embeds `Object(Object& other)`: shares the source's map reference and
`memcpy`s the full slot array. -/
def Object.clone (o : Object) : Object :=
  { map := o.map, slots := o.slots }

/-- Embeds the loop body of `Object::index`: walk from the current map
while the kind is not `EMPTY_OBJECT_MAP`, comparing each `ObjectMap`'s id.
On a `MAP_MAP` the source casts to `ObjectMap*` and reads fields that do
not exist (undefined); such a map never occurs in an object built by the
constructors, and we return the not-found pair there. -/
def Map.walkIndex : Map → Nat → Nat × Bool
| .objectMap parent mid midx, id =>
    if mid = id then (midx, true) else parent.walkIndex id
| .emptyObjectMap, _ => (0, false)
| .mapMap, _ => (0, false)

/-- Embeds `Object::index(Id)`. -/
def Object.index (o : Object) (id : Nat) : Nat × Bool :=
  o.map.walkIndex id

/-- Embeds `Object::get`: look up the id; on success read the slot. -/
def Object.get (o : Object) (id : Nat) : Int × Bool :=
  let lookup := o.index id
  if lookup.2 then (o.slots lookup.1, true) else (0, false)

/-- Embeds the `throw std::runtime_error(...)` in `Object::newSlot`. -/
inductive B9Error
| invalidShapeKind
deriving DecidableEq

/-- Embeds `Object::newSlot`: switch on the current map's kind, construct
the extending `ObjectMap` (`index_` is `0` over the root, `parent->index()
+ 1` truncated to `uint8_t` over a transition), re-point the object at it
and return the new index. The default case throws: the pair carries the
object unchanged, matching C++ unwinding before `map(m)` runs. -/
def Object.newSlot (o : Object) (id : Nat) : Except B9Error Nat × Object :=
  match o.map with
  | .emptyObjectMap =>
      (.ok 0, { o with map := .objectMap o.map id 0 })
  | .objectMap _ _ midx =>
      let ix := (midx + 1) % 256
      (.ok ix, { o with map := .objectMap o.map id ix })
  | .mapMap => (.error .invalidShapeKind, o)

/-- Embeds `Object::set`: resolve the id; overwrite the found slot, or
allocate a new slot and write there. A `newSlot` throw propagates with the
slot array unwritten. -/
def Object.set (o : Object) (id : Nat) (v : Int) : Except B9Error Nat × Object :=
  let lookup := o.index id
  if lookup.2 then
    (.ok lookup.1, { o with slots := fun j => if j = lookup.1 then v else o.slots j })
  else
    match o.newSlot id with
    | (.ok i, o') => (.ok i, { o' with slots := fun j => if j = i then v else o'.slots j })
    | (.error e, o') => (.error e, o')

/-- Runs a sequence of `set` calls left to right (each step keeps the
resulting object state). -/
def applyOps (o : Object) (ops : List (Nat × Int)) : Object :=
  ops.foldl (fun o p => (o.set p.1 p.2).2) o

/-- Depth of a shape chain: number of `ObjectMap` nodes above the root. -/
def Map.depth : Map → Nat
| .objectMap p _ _ => p.depth + 1
| _ => 0

/-- Embeds the two `ObjectMap` constructors as dispatched by `newSlot`'s
switch: over the root the stored index is `0`, over a transition it is
`parent->index() + 1` truncated to `uint8_t`. The source never constructs
an `ObjectMap` over a `MapMap` (`newSlot` throws first); that case is
inert here. -/
def extendMap (parent : Map) (id : Nat) : Map :=
  match parent with
  | .emptyObjectMap => .objectMap parent id 0
  | .objectMap _ _ midx => .objectMap parent id ((midx + 1) % 256)
  | .mapMap => .mapMap

/-- Shape chains built purely through `extend` (the `ObjectMap`
constructors, as invoked from `newSlot`), starting at the root shape. -/
inductive BuiltByExtend : Map → Prop
| root : BuiltByExtend .emptyObjectMap
| step (m : Map) (id : Nat) : BuiltByExtend m → BuiltByExtend (extendMap m id)

/-- Stored slot indices of a chain, listed from the root to the tip. -/
def Map.indicesRootFirst : Map → List Nat
| .objectMap p _ i => p.indicesRootFirst ++ [i]
| _ => []

/-- Stored slot index of the tip node (`0` for a rootless chain). -/
def Map.tipIndex : Map → Nat
| .objectMap _ _ i => i
| _ => 0

/-- Every transition node's stored index is its parent's stored index plus
one reduced `% 256` (the `uint8_t` truncation), or `0` over the root; no
node sits over a `MapMap`. -/
def Map.stepIndicesOK : Map → Prop
| .objectMap p _ i =>
    (match p with
     | .emptyObjectMap => i = 0
     | .objectMap _ _ j => i = (j + 1) % 256
     | .mapMap => False) ∧ p.stepIndicesOK
| .emptyObjectMap => True
| .mapMap => False

/-- Chain of `n` extensions with ids `0, 1, …, n-1` built through the
`ObjectMap` constructors. -/
def idChain : Nat → Map
| 0 => .emptyObjectMap
| n + 1 => extendMap (idChain n) n

/-- Fuel-indexed version of the `Object::index` walk: `none` means the
fuel ran out before the loop finished, `some` carries the loop's result. -/
def walkIndexFuel : Nat → Map → Nat → Option (Nat × Bool)
| 0, _, _ => none
| fuel + 1, m, id =>
    match m with
    | .objectMap parent mid midx =>
        if mid = id then some (midx, true) else walkIndexFuel fuel parent id
    | .emptyObjectMap => some (0, false)
    | .mapMap => some (0, false)

/-- Fuel-indexed `Object::get`: resolves the id with bounded fuel, then
performs the same constant-time slot read. -/
def Object.getFuel (fuel : Nat) (o : Object) (id : Nat) : Option (Int × Bool) :=
  (walkIndexFuel fuel o.map id).map fun lookup =>
    if lookup.2 then (o.slots lookup.1, true) else (0, false)

/-- Fuel-indexed `Object::set`: resolves the id with bounded fuel, then
performs the same constant-time overwrite or single `newSlot` allocation. -/
def Object.setFuel (fuel : Nat) (o : Object) (id : Nat) (v : Int) :
    Option (Except B9Error Nat × Object) :=
  (walkIndexFuel fuel o.map id).map fun lookup =>
    if lookup.2 then
      (.ok lookup.1, { o with slots := fun j => if j = lookup.1 then v else o.slots j })
    else
      match o.newSlot id with
      | (.ok i, o') => (.ok i, { o' with slots := fun j => if j = i then v else o'.slots j })
      | (.error e, o') => (.error e, o')

/-!
Store-based model. Shape allocation (`new (cx) ObjectMap(...)`) is made
explicit: shape nodes live in an append-only store (a list), and an
object's `map_` is a position into that store. This is the level at which
the immutability and read-only frame claims are stated.
-/

/-- A shape node as laid out in the store: its constructor-initialized
fields. `objectMapNode parent id index` holds the `parent_` reference (a
store position), `id_` and `index_`. -/
inductive HNode
| mapMapNode
| emptyObjectMapNode
| objectMapNode (parent : Nat) (id : Nat) (index : Nat)
deriving DecidableEq

/-- An object: the `map_` reference (a store position) and the slot
array. -/
structure HObject where
  mapRef : Nat
  slots : Nat → Int

/-- Dereference a store position (a dangling reference reads as the
meta-map node; object chains built by the operations never dangle). -/
def nodeAt (s : List HNode) (r : Nat) : HNode :=
  s.getD r .mapMapNode

/-- The `Object::index` walk over the store, fuelled (an arbitrary store
could contain a parent cycle; `s.length` fuel suffices for the acyclic
stores the constructors build). -/
def hWalk (s : List HNode) : Nat → Nat → Nat → Nat × Bool
| 0, _, _ => (0, false)
| fuel + 1, r, id =>
    match nodeAt s r with
    | .objectMapNode p mid midx =>
        if mid = id then (midx, true) else hWalk s fuel p id
    | _ => (0, false)

/-- Embeds `Object::index` in the store model. -/
def hIndex (s : List HNode) (o : HObject) (id : Nat) : Nat × Bool :=
  hWalk s s.length o.mapRef id

/-- Embeds `Object::get` in the store model: a walk plus one slot read; no store
write, no slot write, no allocation appears in the source body. -/
def hGet (s : List HNode) (o : HObject) (id : Nat) : Int × Bool :=
  let lookup := hIndex s o id
  if lookup.2 then (o.slots lookup.1, true) else (0, false)

/-- Embeds `Object::newSlot` in the store model: allocate (append) the new
`ObjectMap` node and re-point the object's `map_` at it; on the default
switch case, throw with the store and object untouched. -/
def hNewSlot (s : List HNode) (o : HObject) (id : Nat) :
    Except B9Error Nat × (List HNode × HObject) :=
  match nodeAt s o.mapRef with
  | .emptyObjectMapNode =>
      (.ok 0, (s ++ [.objectMapNode o.mapRef id 0], { o with mapRef := s.length }))
  | .objectMapNode _ _ midx =>
      let ix := (midx + 1) % 256
      (.ok ix, (s ++ [.objectMapNode o.mapRef id ix], { o with mapRef := s.length }))
  | .mapMapNode => (.error .invalidShapeKind, (s, o))

/-- Embeds `Object::set` in the store model. -/
def hSet (s : List HNode) (o : HObject) (id : Nat) (v : Int) :
    Except B9Error Nat × (List HNode × HObject) :=
  let lookup := hIndex s o id
  if lookup.2 then
    (.ok lookup.1, (s, { o with slots := fun j => if j = lookup.1 then v else o.slots j }))
  else
    match hNewSlot s o id with
    | (.ok i, (s', o')) =>
        (.ok i, (s', { o' with slots := fun j => if j = i then v else o'.slots j }))
    | (.error e, p) => (.error e, p)

/-- Embeds `IdGenerator`: `nextId_` is a `uint32_t` starting at 0, and
`newId` returns it and post-increments with the unsigned wrap-around. -/
structure IdGenerator where
  nextId : Nat

/-- Embeds `IdGenerator::newId` (`return nextId_++`). -/
def IdGenerator.newId (g : IdGenerator) : Nat × IdGenerator :=
  (g.nextId, { nextId := (g.nextId + 1) % 2 ^ 32 })

/-- Embeds `SymbolTable`: the `std::map<std::string, Id>` is modelled as
an association list with unique keys (the uniqueness `std::map`
guarantees is the `WFSym` invariant below). -/
structure SymbolTable where
  idGenerator : IdGenerator
  lookupTable : List (String × Nat)

/-- Embeds `SymbolTable::lookup`: return the recorded id if the name is
present, otherwise allocate the next id, record the mapping, return it. -/
def SymbolTable.lookup (s : SymbolTable) (name : String) : Nat × SymbolTable :=
  match s.lookupTable.find? fun e => decide (e.1 = name) with
  | some e => (e.2, s)
  | none =>
      let r := s.idGenerator.newId
      (r.1, { idGenerator := r.2, lookupTable := s.lookupTable ++ [(name, r.1)] })

/-- Well-formedness guard for interner states: keys are unique (as
`std::map` guarantees), recorded ids are unique and below the counter,
and the counter is a `uint32_t` value. A fresh table satisfies it
(`wfSym_fresh`) and `lookup` preserves it exactly while the counter stays
below `2 ^ 32 - 1` (`wfSym_lookup`): the `2 ^ 32`-th fresh intern wraps
`nextId_` back to `0`, after which ids repeat — see the C4
counterexample. -/
def WFSym (s : SymbolTable) : Prop :=
  (∀ e1 ∈ s.lookupTable, ∀ e2 ∈ s.lookupTable, e1.1 = e2.1 → e1 = e2) ∧
  (∀ e1 ∈ s.lookupTable, ∀ e2 ∈ s.lookupTable, e1.2 = e2.2 → e1 = e2) ∧
  (∀ e ∈ s.lookupTable, e.2 < s.idGenerator.nextId) ∧
  s.idGenerator.nextId < 2 ^ 32

/-- One operation of the object protocol. -/
inductive HOp
| getOp (id : Nat)
| setOp (id : Nat) (v : Int)
| newSlotOp (id : Nat)

/-- Run a sequence of operations, threading the store and the object. -/
def runH : List HOp → List HNode × HObject → List HNode × HObject
| [], st => st
| op :: ops, (s, o) =>
    runH ops
      (match op with
       | .getOp _ => (s, o)
       | .setOp id v => (hSet s o id v).2
       | .newSlotOp id => (hNewSlot s o id).2)

/-!
Abstract association-list state used to verify `set`/`get` (claim C2).
The list is kept tip-first (most recently added property first), matching
the orientation of the shape chain; the entry at tip-position `p` in a
list of length `n` occupies slot `n - 1 - p`.
-/

/-- Keys (property identifiers) of an abstract state, tip-first. -/
def keysA (a : List (Nat × Int)) : List Nat :=
  a.map Prod.fst

/-- Slot index assigned to `id` by a tip-first key list: the length of
the part of the list strictly below the first (most recent) occurrence.
This mirrors the tip-to-root search order of the `index` walk. -/
def slotOfTip : List Nat → Nat → Option Nat
| [], _ => none
| i :: r, id => if i = id then some r.length else slotOfTip r id

/-- The shape chain realizing a tip-first key list, with the contiguous
slot indices the constructors produce while no `uint8_t` wrap occurs. -/
def chainOfRev : List Nat → Map
| [] => .emptyObjectMap
| id :: r => .objectMap (chainOfRev r) id r.length

/-- The slot-array contents an abstract state prescribes: position `p`
from the tip holds its entry's value at slot `length - 1 - p`, all other
slots are zero. -/
def slotValue : List (Nat × Int) → Nat → Int
| [], _ => 0
| e :: a, j => if j = a.length then e.2 else slotValue a j

/-- Update-in-place of the (unique) entry for `id`. -/
def updEntry (id : Nat) (v : Int) : Nat × Int → Nat × Int :=
  fun e => if e.1 = id then (e.1, v) else e

/-- Abstract effect of one `set`: overwrite the entry if the id is
present, otherwise add a new tip entry. -/
def setA (a : List (Nat × Int)) (id : Nat) (v : Int) : List (Nat × Int) :=
  match slotOfTip (keysA a) id with
  | some _ => a.map (updEntry id v)
  | none => (id, v) :: a

/-- Abstract state after a sequence of `set` calls on a fresh object. -/
def absOf (ops : List (Nat × Int)) : List (Nat × Int) :=
  ops.foldl (fun a p => setA a p.1 p.2) []

/-- Value recorded for `id` in an abstract state. -/
def findA (a : List (Nat × Int)) (id : Nat) : Option Int :=
  (a.find? fun e => decide (e.1 = id)).map Prod.snd

/-- The value most recently written for `id` by a sequence of `set`
calls. -/
def lastWritten (ops : List (Nat × Int)) (id : Nat) : Option Int :=
  (ops.reverse.find? fun e => decide (e.1 = id)).map Prod.snd

/-- Coupling invariant between an abstract state and a concrete object:
distinct keys, the shape chain realizes the key list, and the slot array
holds exactly the prescribed values. -/
structure Inv (a : List (Nat × Int)) (o : Object) : Prop where
  nodup : (keysA a).Nodup
  mapEq : o.map = chainOfRev (keysA a)
  slotsEq : o.slots = fun j => slotValue a j

/-!
Theorems. Helper lemmas come first, then one theorem per claim (with a
witness or counterexample where required).
-/

/-- The `index` walk over a realized chain returns exactly the slot that
`slotOfTip` assigns (first match searching from the tip). -/
theorem walk_chain (r : List Nat) : ∀ id : Nat,
    (chainOfRev r).walkIndex id =
      (match slotOfTip r id with | some k => (k, true) | none => (0, false)) := by
  induction r with
  | nil => intro id; rfl
  | cons i r ih =>
    intro id
    show (if i = id then (r.length, true) else (chainOfRev r).walkIndex id) = _
    by_cases hc : i = id <;> simp [slotOfTip, hc, ih]

/-- A slot assigned by `slotOfTip` is below the number of keys. -/
theorem slotOfTip_lt : ∀ (r : List Nat) (id k : Nat),
    slotOfTip r id = some k → k < r.length := by
  intro r
  induction r with
  | nil => intro id k h; simp [slotOfTip] at h
  | cons i r ih =>
    intro id k h
    by_cases hc : i = id
    · simp [slotOfTip, hc] at h
      simp only [List.length_cons]
      omega
    · simp only [slotOfTip, if_neg hc] at h
      have := ih id k h
      simp only [List.length_cons]
      omega

/-- The function `slotOfTip` misses exactly the absent identifiers. -/
theorem slotOfTip_none : ∀ (r : List Nat) (id : Nat),
    slotOfTip r id = none ↔ id ∉ r := by
  intro r
  induction r with
  | nil => simp [slotOfTip]
  | cons i r ih =>
    intro id
    by_cases hc : i = id
    · subst hc
      simp [slotOfTip]
    · show (if i = id then some r.length else slotOfTip r id) = none ↔ _
      rw [if_neg hc, ih]
      simp only [List.mem_cons, not_or]
      constructor
      · exact fun h => ⟨fun he => hc he.symm, h⟩
      · exact fun h => h.2

/-- Identifier absence in the key list, element-wise. -/
theorem not_mem_keysA (a : List (Nat × Int)) (id : Nat) :
    id ∉ keysA a ↔ ∀ e ∈ a, e.1 ≠ id := by
  constructor
  · intro h e he hee
    exact h (hee ▸ List.mem_map_of_mem Prod.fst he)
  · intro h hmem
    rcases List.mem_map.1 hmem with ⟨e, he, hee⟩
    exact h e he hee

/-- Updating an absent identifier is the identity. -/
theorem upd_absent (id : Nat) (v : Int) : ∀ a : List (Nat × Int),
    (∀ e ∈ a, e.1 ≠ id) → a.map (updEntry id v) = a := by
  intro a
  induction a with
  | nil => intro _; rfl
  | cons e a ih =>
    intro h
    have h1 : e.1 ≠ id := h e (by simp)
    have h2 : a.map (updEntry id v) = a := ih fun e' he' => h e' (by simp [he'])
    simp [updEntry, h1, h2]

/-- Update-in-place does not change the key list. -/
theorem keysA_map_upd (id : Nat) (v : Int) : ∀ a : List (Nat × Int),
    keysA (a.map (updEntry id v)) = keysA a := by
  intro a
  induction a with
  | nil => rfl
  | cons e a ih =>
    by_cases hc : e.1 = id <;> simp [keysA, updEntry, hc] <;> simpa [keysA] using ih

/-- Update-in-place changes exactly the one slot assigned to the updated
identifier. -/
theorem slotValue_update (id : Nat) (v : Int) : ∀ (a : List (Nat × Int)) (k : Nat),
    (keysA a).Nodup → slotOfTip (keysA a) id = some k →
    ∀ j, slotValue (a.map (updEntry id v)) j = if j = k then v else slotValue a j := by
  intro a
  induction a with
  | nil => intro k _ h; simp [keysA, slotOfTip] at h
  | cons e a ih =>
    intro k hnd hslot j
    have hkeys : keysA (e :: a) = e.1 :: keysA a := rfl
    rw [hkeys, List.nodup_cons] at hnd
    by_cases hc : e.1 = id
    · have hk : k = a.length := by
        rw [show slotOfTip (keysA (e :: a)) id =
            (if e.1 = id then some (keysA a).length else slotOfTip (keysA a) id) from rfl,
          if_pos hc] at hslot
        have := Option.some.inj hslot
        simp [keysA] at this
        omega
      have htail : a.map (updEntry id v) = a :=
        upd_absent id v a ((not_mem_keysA a id).1 (hc ▸ hnd.1))
      rw [show (e :: a).map (updEntry id v) = updEntry id v e :: a.map (updEntry id v) from rfl,
        htail, show updEntry id v e = (e.1, v) from by simp [updEntry, hc], hk]
      by_cases hj : j = a.length
      · rw [show slotValue ((e.1, v) :: a) j = if j = a.length then v else slotValue a j from rfl,
          if_pos hj, if_pos hj]
      · rw [show slotValue ((e.1, v) :: a) j = if j = a.length then v else slotValue a j from rfl,
          if_neg hj, if_neg hj,
          show slotValue (e :: a) j = if j = a.length then e.2 else slotValue a j from rfl,
          if_neg hj]
    · have hslot' : slotOfTip (keysA a) id = some k := by
        rw [show slotOfTip (keysA (e :: a)) id =
            (if e.1 = id then some (keysA a).length else slotOfTip (keysA a) id) from rfl,
          if_neg hc] at hslot
        exact hslot
      have hklt : k < a.length := by
        have := slotOfTip_lt (keysA a) id k hslot'
        simpa [keysA] using this
      rw [show (e :: a).map (updEntry id v) = updEntry id v e :: a.map (updEntry id v) from rfl,
        show updEntry id v e = e from by simp [updEntry, hc]]
      show (if j = (a.map (updEntry id v)).length then e.2 else slotValue (a.map (updEntry id v)) j)
        = _
      rw [List.length_map]
      by_cases hj : j = a.length
      · rw [if_pos hj, if_neg (by omega),
          show slotValue (e :: a) j = if j = a.length then e.2 else slotValue a j from rfl,
          if_pos hj]
      · rw [if_neg hj, ih k hnd.2 hslot' j,
          show slotValue (e :: a) j = if j = a.length then e.2 else slotValue a j from rfl,
          if_neg hj]

/-- Unfolding of `findA` on a cons cell. -/
theorem findA_cons (e : Nat × Int) (a : List (Nat × Int)) (id : Nat) :
    findA (e :: a) id = if e.1 = id then some e.2 else findA a id := by
  by_cases hc : e.1 = id <;> simp [findA, List.find?_cons, hc]

/-- The function `findA` misses exactly the absent identifiers. -/
theorem findA_none_iff (a : List (Nat × Int)) (id : Nat) :
    findA a id = none ↔ id ∉ keysA a := by
  induction a with
  | nil => simp [findA, keysA]
  | cons e a ih =>
    rw [findA_cons, show keysA (e :: a) = e.1 :: keysA a from rfl]
    by_cases hc : e.1 = id
    · subst hc
      simp
    · rw [if_neg hc, ih]
      simp only [List.mem_cons, not_or]
      constructor
      · exact fun h => ⟨fun he => hc he.symm, h⟩
      · exact fun h => h.2

/-- Under distinct keys, the recorded value sits at the assigned slot. -/
theorem findA_slotValue (id : Nat) : ∀ (a : List (Nat × Int)) (k : Nat),
    (keysA a).Nodup → slotOfTip (keysA a) id = some k →
    findA a id = some (slotValue a k) := by
  intro a
  induction a with
  | nil => intro k _ h; simp [keysA, slotOfTip] at h
  | cons e a ih =>
    intro k hnd hslot
    have hkeys : keysA (e :: a) = e.1 :: keysA a := rfl
    rw [hkeys, List.nodup_cons] at hnd
    by_cases hc : e.1 = id
    · have hk : k = a.length := by
        rw [show slotOfTip (keysA (e :: a)) id =
            (if e.1 = id then some (keysA a).length else slotOfTip (keysA a) id) from rfl,
          if_pos hc] at hslot
        have := Option.some.inj hslot
        simp [keysA] at this
        omega
      rw [findA_cons, if_pos hc, hk,
        show slotValue (e :: a) a.length = if a.length = a.length then e.2 else slotValue a a.length
          from rfl,
        if_pos rfl]
    · have hslot' : slotOfTip (keysA a) id = some k := by
        rw [show slotOfTip (keysA (e :: a)) id =
            (if e.1 = id then some (keysA a).length else slotOfTip (keysA a) id) from rfl,
          if_neg hc] at hslot
        exact hslot
      have hklt : k < a.length := by
        have := slotOfTip_lt (keysA a) id k hslot'
        simpa [keysA] using this
      rw [findA_cons, if_neg hc, ih k hnd.2 hslot',
        show slotValue (e :: a) k = if k = a.length then e.2 else slotValue a k from rfl,
        if_neg (by omega)]

/-- After updating a present identifier, `findA` returns the new value. -/
theorem findA_map_upd_mem (id : Nat) (v : Int) : ∀ a : List (Nat × Int),
    id ∈ keysA a → findA (a.map (updEntry id v)) id = some v := by
  intro a
  induction a with
  | nil => intro h; simp [keysA] at h
  | cons e a ih =>
    intro hmem
    rw [show (e :: a).map (updEntry id v) = updEntry id v e :: a.map (updEntry id v) from rfl,
      findA_cons]
    by_cases hc : e.1 = id
    · rw [show updEntry id v e = (e.1, v) from by simp [updEntry, hc]]
      simp [hc]
    · rw [show updEntry id v e = e from by simp [updEntry, hc], if_neg hc]
      apply ih
      rcases List.mem_cons.1 hmem with h | h
      · exact absurd h.symm hc
      · exact h

/-- Updating one identifier leaves every other identifier's record
unchanged. -/
theorem findA_map_upd_other (id id' : Nat) (v : Int) (hne : id' ≠ id) :
    ∀ a : List (Nat × Int), findA (a.map (updEntry id v)) id' = findA a id' := by
  intro a
  induction a with
  | nil => rfl
  | cons e a ih =>
    rw [show (e :: a).map (updEntry id v) = updEntry id v e :: a.map (updEntry id v) from rfl,
      findA_cons, findA_cons]
    have h1 : (updEntry id v e).1 = e.1 := by
      simp only [updEntry]
      split <;> rfl
    rw [h1]
    by_cases hc : e.1 = id'
    · have hne2 : e.1 ≠ id := by rw [hc]; exact hne
      rw [show updEntry id v e = e from by simp [updEntry, hne2], if_pos hc, if_pos hc]
    · rw [if_neg hc, if_neg hc, ih]

/-- The update `setA` records the written value for the written identifier. -/
theorem findA_setA_same (a : List (Nat × Int)) (id : Nat) (v : Int) :
    findA (setA a id v) id = some v := by
  unfold setA
  cases hs : slotOfTip (keysA a) id with
  | none => rw [findA_cons]; simp
  | some k =>
    apply findA_map_upd_mem
    by_contra hmem
    rw [(slotOfTip_none _ _).2 hmem] at hs
    simp at hs

/-- The update `setA` leaves every other identifier's record unchanged. -/
theorem findA_setA_other (a : List (Nat × Int)) (id id' : Nat) (v : Int) (hne : id' ≠ id) :
    findA (setA a id v) id' = findA a id' := by
  unfold setA
  cases hs : slotOfTip (keysA a) id with
  | none => rw [findA_cons, if_neg fun h => hne h.symm]
  | some k => exact findA_map_upd_other id id' v hne a

/-- Folding one more operation into the abstract state. -/
theorem absOf_append_single (ops : List (Nat × Int)) (p : Nat × Int) :
    absOf (ops ++ [p]) = setA (absOf ops) p.1 p.2 := by
  simp [absOf, List.foldl_append]

/-- The most recent write after appending one operation. -/
theorem lastWritten_append_single (ops : List (Nat × Int)) (p : Nat × Int) (id : Nat) :
    lastWritten (ops ++ [p]) id = if p.1 = id then some p.2 else lastWritten ops id := by
  by_cases hc : p.1 = id <;>
    simp [lastWritten, List.reverse_append, List.find?_cons, hc]

/-- The abstract state records exactly the most recent write for every
identifier. -/
theorem findA_absOf (ops : List (Nat × Int)) : ∀ id, findA (absOf ops) id = lastWritten ops id := by
  induction ops using List.reverseRecOn with
  | nil => intro id; rfl
  | append_singleton ops p ih =>
    intro id
    rw [absOf_append_single, lastWritten_append_single]
    by_cases hc : p.1 = id
    · subst hc
      rw [if_pos rfl]
      exact findA_setA_same _ _ _
    · rw [if_neg hc, findA_setA_other _ _ _ _ fun h => hc h.symm, ih]

/-- Under the coupling invariant, `index` and `get` read back what the
abstract state prescribes. -/
theorem inv_get {a : List (Nat × Int)} {o : Object} (hInv : Inv a o) (id : Nat) :
    o.index id =
      (match slotOfTip (keysA a) id with | some k => (k, true) | none => (0, false)) ∧
    o.get id =
      (match findA a id with | some v => (v, true) | none => (0, false)) := by
  obtain ⟨hnd, hmap, hslots⟩ := hInv
  have hidx : o.index id =
      (match slotOfTip (keysA a) id with | some k => (k, true) | none => (0, false)) := by
    rw [Object.index, hmap]
    exact walk_chain _ _
  refine ⟨hidx, ?_⟩
  cases hs : slotOfTip (keysA a) id with
  | none =>
    have hf : findA a id = none := (findA_none_iff a id).2 ((slotOfTip_none _ _).1 hs)
    rw [hs] at hidx
    rw [hf]
    simp [Object.get, hidx]
  | some k =>
    have hf := findA_slotValue id a k hnd hs
    rw [hs] at hidx
    rw [hf]
    simp [Object.get, hidx, hslots]

/-- One `set` step preserves the coupling invariant (for states within
the `uint8_t` index range, which the 32-identifier bound guarantees). -/
theorem inv_set {a : List (Nat × Int)} {o : Object} (hInv : Inv a o) (hlen : a.length < 256)
    (id : Nat) (v : Int) : Inv (setA a id v) (o.set id v).2 := by
  obtain ⟨hnd, hmap, hslots⟩ := hInv
  have hidx : o.index id =
      (match slotOfTip (keysA a) id with | some k => (k, true) | none => (0, false)) := by
    rw [Object.index, hmap]
    exact walk_chain _ _
  cases hslot : slotOfTip (keysA a) id with
  | some k =>
    rw [hslot] at hidx
    have hset : (o.set id v).2 = { o with slots := fun j => if j = k then v else o.slots j } := by
      simp [Object.set, hidx]
    rw [hset]
    rw [show setA a id v = a.map (updEntry id v) from by unfold setA; rw [hslot]]
    refine ⟨?_, ?_, ?_⟩
    · rw [keysA_map_upd]; exact hnd
    · show o.map = chainOfRev (keysA (a.map (updEntry id v)))
      rw [keysA_map_upd]; exact hmap
    · funext j
      show (if j = k then v else o.slots j) = slotValue (a.map (updEntry id v)) j
      rw [slotValue_update id v a k hnd hslot j, hslots]
  | none =>
    rw [hslot] at hidx
    have hnotmem : id ∉ keysA a := (slotOfTip_none _ _).1 hslot
    rw [show setA a id v = (id, v) :: a from by unfold setA; rw [hslot]]
    have hnew : o.newSlot id = (.ok a.length, { o with map := .objectMap o.map id a.length }) := by
      cases hk : keysA a with
      | nil =>
        have hm : o.map = .emptyObjectMap := by rw [hmap, hk]; rfl
        have ha : a.length = 0 := by
          have := congrArg List.length hk
          simpa [keysA] using this
        simp [Object.newSlot, hm, ha]
      | cons k0 r =>
        have hm : o.map = .objectMap (chainOfRev r) k0 r.length := by rw [hmap, hk]; rfl
        have ha : a.length = r.length + 1 := by
          have := congrArg List.length hk
          simpa [keysA] using this
        have hmod : (r.length + 1) % 256 = r.length + 1 := Nat.mod_eq_of_lt (by omega)
        simp [Object.newSlot, hm, hmod, ha]
    have hset : (o.set id v).2 =
        { map := Map.objectMap o.map id a.length,
          slots := fun j => if j = a.length then v else o.slots j } := by
      simp [Object.set, hidx, hnew]
    rw [hset]
    refine ⟨?_, ?_, ?_⟩
    · rw [show keysA ((id, v) :: a) = id :: keysA a from rfl, List.nodup_cons]
      exact ⟨hnotmem, hnd⟩
    · show Map.objectMap o.map id a.length = chainOfRev (keysA ((id, v) :: a))
      rw [show keysA ((id, v) :: a) = id :: keysA a from rfl,
        show chainOfRev (id :: keysA a) = .objectMap (chainOfRev (keysA a)) id (keysA a).length
          from rfl,
        hmap]
      congr 1
      simp [keysA]
    · funext j
      show (if j = a.length then v else o.slots j) = slotValue ((id, v) :: a) j
      rw [hslots, show slotValue ((id, v) :: a) j = if j = a.length then v else slotValue a j
        from rfl]

/-- The update `setA` grows the key list by at most the written identifier. -/
theorem keysA_setA (a : List (Nat × Int)) (id : Nat) (v : Int) :
    keysA (setA a id v) = keysA a ∨ keysA (setA a id v) = id :: keysA a := by
  unfold setA
  cases slotOfTip (keysA a) id with
  | some k => exact .inl (keysA_map_upd id v a)
  | none => exact .inr rfl

/-- Running a sequence of `set` calls preserves the coupling invariant as
long as at most 32 identifiers are ever involved. -/
theorem inv_run : ∀ (ops : List (Nat × Int)) (a : List (Nat × Int)) (o : Object),
    Inv a o →
    ((keysA a).toFinset ∪ (ops.map Prod.fst).toFinset).card ≤ 32 →
    Inv (ops.foldl (fun a p => setA a p.1 p.2) a) (ops.foldl (fun o p => (o.set p.1 p.2).2) o) := by
  intro ops
  induction ops with
  | nil => intro a o h _; exact h
  | cons p ops ih =>
    intro a o hInv hcard
    have hlen : a.length < 256 := by
      have h2 : (keysA a).toFinset.card = (keysA a).length :=
        List.toFinset_card_of_nodup hInv.nodup
      have h4 : (keysA a).toFinset.card ≤ 32 :=
        le_trans (Finset.card_le_card Finset.subset_union_left) hcard
      have h3 : (keysA a).length = a.length := by simp [keysA]
      omega
    have hstep := inv_set hInv hlen p.1 p.2
    apply ih _ _ hstep
    refine le_trans (Finset.card_le_card fun x hx => ?_) hcard
    rw [show (p :: ops).map Prod.fst = p.1 :: ops.map Prod.fst from rfl, List.toFinset_cons]
    rcases Finset.mem_union.1 hx with hx | hx
    · rcases keysA_setA a p.1 p.2 with hk | hk
      · exact Finset.mem_union_left _ (hk ▸ hx)
      · rw [hk, List.toFinset_cons] at hx
        rcases Finset.mem_insert.1 hx with hx | hx
        · exact Finset.mem_union_right _ (hx ▸ Finset.mem_insert_self _ _)
        · exact Finset.mem_union_left _ hx
    · exact Finset.mem_union_right _ (Finset.mem_insert_of_mem hx)

/-- C2: for every sequence of `set` calls involving at most 32 distinct
identifiers on a fresh object, `get` returns `(v, true)` where `v` is the
most recently written value for each identifier that was set, and for
every identifier never set (equivalently, absent from the shape chain)
`index` reports not-found and `get` returns `(0, false)`. -/
theorem c2_resolve_correct (ops : List (Nat × Int))
    (hcard : (ops.map Prod.fst).toFinset.card ≤ 32) :
    (∀ id v, lastWritten ops id = some v → (applyOps freshObject ops).get id = (v, true)) ∧
    (∀ id, lastWritten ops id = none →
      (applyOps freshObject ops).index id = (0, false) ∧
      (applyOps freshObject ops).get id = (0, false)) := by
  have hInv0 : Inv [] freshObject := ⟨List.nodup_nil, rfl, rfl⟩
  have hc0 : ((keysA ([] : List (Nat × Int))).toFinset ∪ (ops.map Prod.fst).toFinset).card ≤ 32 :=
    by simpa [keysA] using hcard
  have hInv : Inv (absOf ops) (applyOps freshObject ops) :=
    inv_run ops [] freshObject hInv0 hc0
  constructor
  · intro id v hlast
    have hf : findA (absOf ops) id = some v := by rw [findA_absOf]; exact hlast
    have hg := (inv_get hInv id).2
    rw [hf] at hg
    exact hg
  · intro id hlast
    have hf : findA (absOf ops) id = none := by rw [findA_absOf]; exact hlast
    have hslot : slotOfTip (keysA (absOf ops)) id = none :=
      (slotOfTip_none _ _).2 ((findA_none_iff _ _).1 hf)
    have h1 := (inv_get hInv id).1
    have h2 := (inv_get hInv id).2
    rw [hslot] at h1
    rw [hf] at h2
    exact ⟨h1, h2⟩

/-- Witness for C2: the spec's concrete scenario
(`set 0 10`, `set 1 20`, then `get 0` and a miss on `2`). -/
theorem c2_resolve_correct_witness :
    (applyOps freshObject [(0, 10), (1, 20)]).get 0 = (10, true) ∧
    (applyOps freshObject [(0, 10), (1, 20)]).get 1 = (20, true) ∧
    (applyOps freshObject [(0, 10), (1, 20)]).get 2 = (0, false) :=
  ⟨(c2_resolve_correct [(0, 10), (1, 20)] (by decide)).1 0 10 (by decide),
   (c2_resolve_correct [(0, 10), (1, 20)] (by decide)).1 1 20 (by decide),
   ((c2_resolve_correct [(0, 10), (1, 20)] (by decide)).2 2 (by decide)).2⟩

/-- A `newSlot` either throws (store untouched) or appends exactly one
node. -/
theorem hNewSlot_store (s : List HNode) (o : HObject) (id : Nat) :
    (hNewSlot s o id).2.1 = s ∨ ∃ nd, (hNewSlot s o id).2.1 = s ++ [nd] := by
  unfold hNewSlot
  cases nodeAt s o.mapRef <;> simp

/-- A `set` either leaves the store alone or appends exactly one node. -/
theorem hSet_store (s : List HNode) (o : HObject) (id : Nat) (v : Int) :
    (hSet s o id v).2.1 = s ∨ ∃ nd, (hSet s o id v).2.1 = s ++ [nd] := by
  unfold hSet
  rcases hNewSlot_store s o id with h | ⟨nd, h⟩ <;>
    rcases hn : hNewSlot s o id with ⟨e | i, s', o'⟩ <;>
      rw [hn] at h <;> simp at h <;> simp [h] <;> split <;> simp [h]

/-- C7: shapes are immutable after construction. Over any sequence of
`get`, `set` and `newSlot` operations, every already-constructed shape
node in the store is untouched: its kind, parent, identifier and slot
index (the node's entire contents) read back unchanged. The operations
only ever append new nodes. -/
theorem c7_shape_immutable (ops : List HOp) : ∀ (s : List HNode) (o : HObject) (k : Nat),
    k < s.length → ((runH ops (s, o)).1)[k]? = s[k]? := by
  induction ops with
  | nil => intro s o k hk; rfl
  | cons op ops ih =>
    intro s o k hk
    have step :
        ∀ s' : List HNode × HObject,
          s'.1 = s ∨ (∃ nd, s'.1 = s ++ [nd]) →
          (runH ops s').1[k]? = s[k]? := by
      rintro ⟨s', o'⟩ (h | ⟨nd, h⟩)
      · subst h; exact ih s' o' k hk
      · subst h
        rw [ih (s ++ [nd]) o' k (by simp; omega)]
        exact List.getElem?_append_left hk
    cases op with
    | getOp id => exact step (s, o) (.inl rfl)
    | setOp id v => exact step (hSet s o id v).2 (hSet_store s o id v)
    | newSlotOp id => exact step (hNewSlot s o id).2 (hNewSlot_store s o id)

/-- Witness for C7: a `newSlot` on a one-node store leaves the root node
readable unchanged at position 0. -/
theorem c7_shape_immutable_witness :
    ((runH [HOp.newSlotOp 4] ([HNode.emptyObjectMapNode], ⟨0, fun _ => 0⟩)).1)[0]? =
      [HNode.emptyObjectMapNode][0]? :=
  c7_shape_immutable [HOp.newSlotOp 4] [HNode.emptyObjectMapNode] ⟨0, fun _ => 0⟩ 0
    (by decide)

/-- C10: `get` (with its underlying `index` walk) is read-only: inserting
a `get` anywhere into a sequence of operations changes neither the store
(no allocation, no shape modified) nor the object (its `map_` reference
and its slot array), nor the effect of the surrounding operations. -/
theorem c10_get_readonly (ops1 ops2 : List HOp) (s : List HNode) (o : HObject) (id : Nat) :
    runH (ops1 ++ HOp.getOp id :: ops2) (s, o) = runH (ops1 ++ ops2) (s, o) := by
  induction ops1 generalizing s o with
  | nil => rfl
  | cons op ops1 ih =>
    cases op with
    | getOp i => exact ih s o
    | setOp i v => exact ih (hSet s o i v).2.1 (hSet s o i v).2.2
    | newSlotOp i => exact ih (hNewSlot s o i).2.1 (hNewSlot s o i).2.2

/-- Every `idChain n` is built purely through the `ObjectMap`
constructors. -/
theorem built_idChain : ∀ n, BuiltByExtend (idChain n) := by
  intro n
  induction n with
  | zero => exact .root
  | succ k ih => exact .step _ k ih

/-- C1: `set`/`newSlot` has no capacity check. Applying 31 distinct
identifiers and then a 32nd succeeds with slot index 31 (the second half
of the claim), but applying a 33rd distinct identifier to an object that
already has 32 distinct properties also succeeds, returning slot index
`32 = MAX_SLOTS`: the source then writes `slots_[32]`, one past the end
of the `Value slots_[MAX_SLOTS]` array, instead of failing with a
capacity error. -/
theorem c1_capacity_check_missing :
    ((applyOps freshObject ((List.range 31).map fun i => (i, 1))).set 31 7).1 = .ok 31 ∧
    ((applyOps freshObject ((List.range 32).map fun i => (i, 1))).set 32 7).1 = .ok 32 ∧
    MAX_SLOTS = 32 :=
  ⟨by rfl, by rfl, rfl⟩

/-- C3 (counterexample): the stored slot index field is a `uint8_t`, so a
chain built purely through `extend` wraps at depth 257: its indices from
the root are not `0, 1, …, depth-1` and its tip's index is `0`, not
`parent.index + 1`. -/
theorem c3_contiguity_counterexample :
    BuiltByExtend (idChain 257) ∧
    (idChain 257).depth = 257 ∧
    (idChain 257).tipIndex = 0 ∧
    (idChain 257).indicesRootFirst ≠ List.range ((idChain 257).depth) :=
  ⟨built_idChain 257, by decide, by decide, by decide⟩

/-- C3 (amended): along any chain built purely through `extend`, each
transition's stored index is `(parent.index + 1) % 256` over a transition
and `0` over the root; consequently for every such chain of depth at most
256 (so in particular within the intended `MAX_SLOTS = 32` bound) the
indices from root to tip are exactly `0, 1, …, depth-1`. -/
theorem c3_contiguity_amended (m : Map) (h : BuiltByExtend m) :
    m.stepIndicesOK ∧ (m.depth ≤ 256 → m.indicesRootFirst = List.range m.depth) := by
  induction h with
  | root => exact ⟨trivial, fun _ => rfl⟩
  | step m id hm ih =>
    obtain ⟨hOK, hContig⟩ := ih
    cases m with
    | mapMap => exact hOK.elim
    | emptyObjectMap => exact ⟨⟨rfl, trivial⟩, fun _ => rfl⟩
    | objectMap p pid j =>
      refine ⟨⟨rfl, hOK⟩, fun hd => ?_⟩
      have hdm : p.depth + 1 ≤ 255 := by
        simpa [extendMap, Map.depth] using hd
      have hind := hContig (by simp [Map.depth]; omega)
      have h2 : p.indicesRootFirst ++ [j] = List.range p.depth ++ [p.depth] := by
        rw [show (Map.objectMap p pid j).indicesRootFirst = p.indicesRootFirst ++ [j] from rfl,
            show (Map.objectMap p pid j).depth = p.depth + 1 from rfl, List.range_succ] at hind
        exact hind
      have hlen : p.indicesRootFirst.length = (List.range p.depth).length := by
        have := congrArg List.length h2
        simp at this
        simp [this]
      obtain ⟨hp, hj⟩ := List.append_inj h2 hlen
      have hj : j = p.depth := by simpa using hj
      subst hj
      have hmod : (p.depth + 1) % 256 = p.depth + 1 := Nat.mod_eq_of_lt (by omega)
      simp [extendMap, Map.indicesRootFirst, Map.depth, hmod, hp, List.range_succ]

/-- Witness for the amended C3 theorem at the depth-2 chain. -/
theorem c3_contiguity_amended_witness :
    (idChain 2).stepIndicesOK ∧
    ((idChain 2).depth ≤ 256 → (idChain 2).indicesRootFirst = List.range ((idChain 2).depth)) :=
  c3_contiguity_amended (idChain 2) (built_idChain 2)

/-- C5: overwriting an identifier already present in the chain leaves the
object's shape unchanged through both writes, returns the same slot index
both times, stores the second value in exactly that slot and leaves every
other slot unchanged. -/
theorem c5_overwrite_frame (o : Object) (id : Nat) (v1 v2 : Int)
    (h : (o.index id).2 = true) :
    ∃ k o1 o2,
      o.set id v1 = (.ok k, o1) ∧
      o1.set id v2 = (.ok k, o2) ∧
      o1.map = o.map ∧ o2.map = o.map ∧
      o2.slots k = v2 ∧ ∀ j, j ≠ k → o2.slots j = o.slots j := by
  refine ⟨(o.index id).1,
    { o with slots := fun j => if j = (o.index id).1 then v1 else o.slots j },
    { o with slots := fun j => if j = (o.index id).1 then v2 else o.slots j },
    ?_, ?_, rfl, rfl, by simp, fun j hj => by simp [hj]⟩
  · simp [Object.set, h]
  · have h1 : (Object.index
        { o with slots := fun j => if j = (o.index id).1 then v1 else o.slots j } id) =
        o.index id := rfl
    simp [Object.set, h1, h]
    funext j
    by_cases hj : j = (o.index id).1 <;> simp [hj]

/-- Witness for C5 at a one-property object. -/
theorem c5_overwrite_frame_witness :
    ∃ k o1 o2,
      Object.set ⟨Map.objectMap .emptyObjectMap 0 0, fun _ => 0⟩ 0 10 = (.ok k, o1) ∧
      Object.set o1 0 20 = (.ok k, o2) ∧
      o1.map = Map.objectMap .emptyObjectMap 0 0 ∧
      o2.map = Map.objectMap .emptyObjectMap 0 0 ∧
      o2.slots k = 20 ∧ ∀ j, j ≠ k → o2.slots j = 0 :=
  c5_overwrite_frame ⟨Map.objectMap .emptyObjectMap 0 0, fun _ => 0⟩ 0 10 20 rfl

/-- C6: a structural clone shares the source's map and copies its slots
verbatim; a subsequent `set` with an identifier absent from the shared
chain moves the clone to a shape that is exactly one transition whose
parent is the original shared shape, writes the new slot, and leaves every
other slot equal to the original object's slot. (The original object is a
distinct value, untouched by construction: `set` on the clone never reads
or writes it.) -/
theorem c6_clone_independence (a : Object) (id : Nat) (v : Int)
    (habs : ((a.clone).index id).2 = false)
    (hkind : a.map.kind ≠ .MAP_MAP) :
    a.clone = ⟨a.map, a.slots⟩ ∧
    ∃ k b, (a.clone).set id v = (.ok k, b) ∧
      b.map = .objectMap a.map id k ∧
      b.slots k = v ∧ ∀ j, j ≠ k → b.slots j = a.slots j := by
  refine ⟨rfl, ?_⟩
  obtain ⟨m, sl⟩ := a
  cases m with
  | mapMap => exact absurd rfl hkind
  | emptyObjectMap =>
    exact ⟨0, ⟨.objectMap .emptyObjectMap id 0, fun j => if j = 0 then v else sl j⟩,
      rfl, rfl, by simp, fun j hj => by simp [hj]⟩
  | objectMap p pid pix =>
    refine ⟨(pix + 1) % 256,
      ⟨.objectMap (.objectMap p pid pix) id ((pix + 1) % 256),
        fun j => if j = (pix + 1) % 256 then v else sl j⟩,
      ?_, rfl, by simp, fun j hj => by simp [hj]⟩
    simp only [Object.clone, Object.index] at habs ⊢
    simp [Object.set, Object.index, habs, Object.newSlot]

/-- Witness for C6 at a fresh object. -/
theorem c6_clone_independence_witness :
    Object.clone ⟨Map.emptyObjectMap, fun _ => 0⟩ = ⟨Map.emptyObjectMap, fun _ => 0⟩ ∧
    ∃ k b, Object.set (Object.clone ⟨Map.emptyObjectMap, fun _ => 0⟩) 0 9 = (.ok k, b) ∧
      b.map = Map.objectMap Map.emptyObjectMap 0 k ∧
      b.slots k = 9 ∧ ∀ j, j ≠ k → b.slots j = 0 :=
  c6_clone_independence ⟨Map.emptyObjectMap, fun _ => 0⟩ 0 9 rfl (by decide)

/-- The `Object::index` walk finishes once the fuel exceeds the chain
depth: the loop takes one comparison per transition node plus the final
root test. -/
theorem walk_fuel (m : Map) : ∀ (id fuel : Nat), m.depth < fuel →
    walkIndexFuel fuel m id = some (m.walkIndex id) := by
  induction m with
  | mapMap =>
    intro id fuel h
    match fuel, h with
    | f + 1, _ => rfl
  | emptyObjectMap =>
    intro id fuel h
    match fuel, h with
    | f + 1, _ => rfl
  | objectMap parent mid midx ih =>
    intro id fuel h
    match fuel, h with
    | f + 1, h =>
      have hp : parent.depth < f := by
        simp [Map.depth] at h
        omega
      simp only [walkIndexFuel, Map.walkIndex, ih id f hp]
      split <;> rfl

/-- C8 (counterexample to the depth bound): nothing in the code caps the
chain depth at `MAX_SLOTS`: after 33 `set` calls with distinct
identifiers on a fresh object, the shape chain has depth 33 > 32. -/
theorem c8_depth_counterexample :
    MAX_SLOTS = 32 ∧
    (applyOps freshObject ((List.range 33).map fun i => (i, 1))).map.depth = 33 ∧
    ¬ ((applyOps freshObject ((List.range 33).map fun i => (i, 1))).map.depth ≤ MAX_SLOTS) :=
  ⟨rfl, by decide, by decide⟩

/-- C8 (amended): every operation terminates. The `index`/`resolve` walk
completes within `depth + 1` steps (fuel exceeding the chain depth never
runs out), and `get` and `set` are that walk plus a constant amount of
work, so no operation can hang on any finite chain; the code does not,
however, bound the chain depth by `MAX_SLOTS`. -/
theorem c8_termination_amended (o : Object) (id : Nat) (v : Int) (fuel : Nat)
    (h : o.map.depth < fuel) :
    walkIndexFuel fuel o.map id = some (o.index id) ∧
    o.getFuel fuel id = some (o.get id) ∧
    o.setFuel fuel id v = some (o.set id v) := by
  have hw := walk_fuel o.map id fuel h
  refine ⟨hw, ?_, ?_⟩
  · simp [Object.getFuel, hw, Object.get, Object.index]
  · simp [Object.setFuel, hw, Object.set, Object.index]

/-- Witness for the amended C8 theorem at a depth-1 chain with fuel 2. -/
theorem c8_termination_amended_witness :
    walkIndexFuel 2 (Map.objectMap .emptyObjectMap 0 0) 0 =
      some (Object.index ⟨Map.objectMap .emptyObjectMap 0 0, fun _ => 0⟩ 0) ∧
    Object.getFuel 2 ⟨Map.objectMap .emptyObjectMap 0 0, fun _ => 0⟩ 0 =
      some (Object.get ⟨Map.objectMap .emptyObjectMap 0 0, fun _ => 0⟩ 0) ∧
    Object.setFuel 2 ⟨Map.objectMap .emptyObjectMap 0 0, fun _ => 0⟩ 0 5 =
      some (Object.set ⟨Map.objectMap .emptyObjectMap 0 0, fun _ => 0⟩ 0 5) :=
  c8_termination_amended ⟨Map.objectMap .emptyObjectMap 0 0, fun _ => 0⟩ 0 5 2 (by decide)

/-- A fresh symbol table is well-formed. -/
theorem wfSym_fresh : WFSym ⟨⟨0⟩, []⟩ :=
  ⟨by simp, by simp, by simp, by norm_num⟩

/-- One `lookup` preserves well-formedness as long as the counter has not
reached `2 ^ 32 - 1`, i.e. along any run of fewer than `2 ^ 32` fresh
interns. (Preservation genuinely fails at the wrap: the counter returns
to `0` while recorded ids are as large as `2 ^ 32 - 1`.) -/
theorem wfSym_lookup (s : SymbolTable) (name : String) (h : WFSym s)
    (hlt : s.idGenerator.nextId + 1 < 2 ^ 32) : WFSym (s.lookup name).2 := by
  obtain ⟨hkey, hid, hbelow, hbound⟩ := h
  cases hf : s.lookupTable.find? (fun e => decide (e.1 = name)) with
  | some e =>
    simp only [SymbolTable.lookup, hf]
    exact ⟨hkey, hid, hbelow, hbound⟩
  | none =>
    have hfresh : ∀ e ∈ s.lookupTable, e.1 ≠ name := by
      intro e he
      have := List.find?_eq_none.1 hf e he
      simpa using this
    have hmod : (s.idGenerator.nextId + 1) % 2 ^ 32 = s.idGenerator.nextId + 1 :=
      Nat.mod_eq_of_lt hlt
    simp only [SymbolTable.lookup, hf, IdGenerator.newId]
    refine ⟨?_, ?_, ?_, ?_⟩
    · intro e1 he1 e2 he2 heq
      rcases List.mem_append.1 he1 with h1 | h1 <;> rcases List.mem_append.1 he2 with h2 | h2
      · exact hkey e1 h1 e2 h2 heq
      · simp only [List.mem_singleton] at h2
        subst h2
        exact absurd heq (hfresh e1 h1)
      · simp only [List.mem_singleton] at h1
        subst h1
        exact absurd heq.symm (hfresh e2 h2)
      · simp only [List.mem_singleton] at h1 h2
        rw [h1, h2]
    · intro e1 he1 e2 he2 heq
      rcases List.mem_append.1 he1 with h1 | h1 <;> rcases List.mem_append.1 he2 with h2 | h2
      · exact hid e1 h1 e2 h2 heq
      · simp only [List.mem_singleton] at h2
        subst h2
        exact absurd heq (by have := hbelow e1 h1; omega)
      · simp only [List.mem_singleton] at h1
        subst h1
        exact absurd heq.symm (by have := hbelow e2 h2; omega)
      · simp only [List.mem_singleton] at h1 h2
        rw [h1, h2]
    · intro e he
      rcases List.mem_append.1 he with h1 | h1
      · have := hbelow e h1
        show e.2 < (s.idGenerator.nextId + 1) % 2 ^ 32
        rw [hmod]
        omega
      · simp only [List.mem_singleton] at h1
        subst h1
        show s.idGenerator.nextId < (s.idGenerator.nextId + 1) % 2 ^ 32
        rw [hmod]
        omega
    · show (s.idGenerator.nextId + 1) % 2 ^ 32 < 2 ^ 32
      exact Nat.mod_lt _ (by norm_num)

/-- C4 (counterexample): the `Id` counter is a `uint32_t` and `newId` is
`return nextId_++`, so interning is not injective across a whole run. At
the wrapped-counter state the code reaches after `2 ^ 32 - 1` fresh
interns (shown here with only the relevant first entry `("a", 0)` kept in
the table), the next fresh name gets id `2 ^ 32 - 1` and the counter
steps down to `0` — not monotonically up — and the fresh name after that
gets id `0`, the very Identifier the table still records for the distinct
first name. -/
theorem c4_interning_counterexample :
    (SymbolTable.lookup ⟨⟨2 ^ 32 - 1⟩, [("a", 0)]⟩ ("b")).1 = 2 ^ 32 - 1 ∧
    (SymbolTable.lookup ⟨⟨2 ^ 32 - 1⟩, [("a", 0)]⟩ ("b")).2.idGenerator.nextId = 0 ∧
    ((SymbolTable.lookup ⟨⟨2 ^ 32 - 1⟩, [("a", 0)]⟩ ("b")).2.lookup ("c")).1 = 0 ∧
    ("a", 0) ∈
      ((SymbolTable.lookup ⟨⟨2 ^ 32 - 1⟩, [("a", 0)]⟩ ("b")).2.lookup ("c")).2.lookupTable :=
  ⟨by decide, by decide, by decide, by decide⟩

/-- C4 (amended): interning is idempotent (the same name yields the same
identifier both times); and in every state where the recorded ids are
unique and below the `uint32_t` counter (`WFSym` — established by a fresh
table and preserved by `lookup` until `2 ^ 32` fresh interns wrap the
counter, see `wfSym_fresh`, `wfSym_lookup` and the counterexample), a
second, distinct name yields a distinct identifier, and a fresh name is
assigned the current counter value, the counter then advancing modulo
`2 ^ 32`. -/
theorem c4_interning (s : SymbolTable) (h : WFSym s) (n1 n2 : String) :
    ((s.lookup n1).2.lookup n1).1 = (s.lookup n1).1 ∧
    (n1 ≠ n2 → ((s.lookup n1).2.lookup n2).1 ≠ (s.lookup n1).1) ∧
    (s.lookupTable.find? (fun e => decide (e.1 = n1)) = none →
      (s.lookup n1).1 = s.idGenerator.nextId ∧
      (s.lookup n1).2.idGenerator.nextId = (s.idGenerator.nextId + 1) % 2 ^ 32) := by
  obtain ⟨hkey, hid, hlt, hbound⟩ := h
  cases hf1 : s.lookupTable.find? (fun e => decide (e.1 = n1)) with
  | some e1 =>
    have he1mem : e1 ∈ s.lookupTable := List.mem_of_find?_eq_some hf1
    have he1key : e1.1 = n1 := by simpa using List.find?_some hf1
    refine ⟨by simp [SymbolTable.lookup, hf1], ?_, by intro h0; simp [hf1] at h0⟩
    intro hne
    cases hf2 : s.lookupTable.find? (fun e => decide (e.1 = n2)) with
    | some e2 =>
      have he2mem : e2 ∈ s.lookupTable := List.mem_of_find?_eq_some hf2
      have he2key : e2.1 = n2 := by simpa using List.find?_some hf2
      simp only [SymbolTable.lookup, hf1, hf2]
      intro heq
      exact hne (he1key ▸ he2key ▸ congrArg Prod.fst (hid e2 he2mem e1 he1mem heq).symm)
    | none =>
      simp only [SymbolTable.lookup, hf1, hf2, IdGenerator.newId]
      have := hlt e1 he1mem
      omega
  | none =>
    refine ⟨?_, ?_, ?_⟩
    · have hfind : (s.lookupTable ++ [(n1, s.idGenerator.nextId)]).find?
          (fun e => decide (e.1 = n1)) = some (n1, s.idGenerator.nextId) := by
        rw [List.find?_append, hf1]
        simp
      simp [SymbolTable.lookup, hf1, IdGenerator.newId, hfind]
    · intro hne
      cases hf2 : (s.lookupTable ++ [(n1, s.idGenerator.nextId)]).find?
          (fun e => decide (e.1 = n2)) with
      | some e2 =>
        have he2mem : e2 ∈ s.lookupTable ++ [(n1, s.idGenerator.nextId)] :=
          List.mem_of_find?_eq_some hf2
        have he2key : e2.1 = n2 := by simpa using List.find?_some hf2
        have he2mem' : e2 ∈ s.lookupTable := by
          rcases List.mem_append.1 he2mem with hmem | hmem
          · exact hmem
          · exfalso
            apply hne
            rw [← he2key]
            simp at hmem
            rw [hmem]
        have := hlt e2 he2mem'
        simp only [SymbolTable.lookup, hf1, IdGenerator.newId, hf2]
        omega
      | none =>
        simp only [SymbolTable.lookup, hf1, IdGenerator.newId, hf2]
        intro heq
        rcases Nat.lt_or_ge (s.idGenerator.nextId + 1) (2 ^ 32) with hsm | hge
        · rw [Nat.mod_eq_of_lt hsm] at heq
          omega
        · have h232 : s.idGenerator.nextId + 1 = 2 ^ 32 := by omega
          rw [h232, Nat.mod_self] at heq
          omega
    · intro _
      simp [SymbolTable.lookup, hf1, IdGenerator.newId]

/-- Witness for C4 at the fresh symbol table with two distinct names. -/
theorem c4_interning_witness :
    ((SymbolTable.lookup ⟨⟨0⟩, []⟩ "x").2.lookup ("x")).1 = (SymbolTable.lookup ⟨⟨0⟩, []⟩ "x").1 ∧
    ("x" ≠ "y" →
      ((SymbolTable.lookup ⟨⟨0⟩, []⟩ "x").2.lookup ("y")).1 ≠ (SymbolTable.lookup ⟨⟨0⟩, []⟩ "x").1) ∧
    (([] : List (String × Nat)).find? (fun e => decide (e.1 = "x")) = none →
      (SymbolTable.lookup ⟨⟨0⟩, []⟩ "x").1 = 0 ∧
      (SymbolTable.lookup ⟨⟨0⟩, []⟩ "x").2.idGenerator.nextId = (0 + 1) % 2 ^ 32) :=
  c4_interning ⟨⟨0⟩, []⟩ ⟨by simp, by simp, by simp, by norm_num⟩ "x" "y"

/-- C9: `newSlot` returns the invalid-shape-kind error exactly when the
object's current map kind is neither the root kind nor the transition
kind, and in that case the object (its map reference and its slot array)
is returned unchanged: the throw happens before `map(m)` runs and
`newSlot` never writes a slot. -/
theorem c9_invalid_shape_kind (o : Object) (id : Nat) :
    ((o.newSlot id).1 = .error .invalidShapeKind ↔
      o.map.kind ≠ .EMPTY_OBJECT_MAP ∧ o.map.kind ≠ .OBJECT_MAP) ∧
    (o.map.kind ≠ .EMPTY_OBJECT_MAP ∧ o.map.kind ≠ .OBJECT_MAP →
      (o.newSlot id).2 = o) := by
  obtain ⟨m, sl⟩ := o
  cases m <;> simp [Object.newSlot, Map.kind]

/-- Witness for C9 at an object whose map is the meta-map. -/
theorem c9_invalid_shape_kind_witness :
    (Object.newSlot ⟨Map.mapMap, fun _ => 0⟩ 5).2 = ⟨Map.mapMap, fun _ => 0⟩ :=
  (c9_invalid_shape_kind ⟨Map.mapMap, fun _ => 0⟩ 5).2 ⟨by decide, by decide⟩

end b9
